import Mathlib

set_option maxRecDepth 4000

/-
Shallow embedding of the W prime balance computation of WPrime.cpp
(class WPrime, method setRide, and the MinWPrime metric).

Modelling conventions:
 - sample timestamps are naturals (the C++ code stores them into int
   variables), powers are rationals (C++ doubles);
 - the natural cubic spline evaluation int(smoothed.value(i)) is an
   oracle parameter (spline : Nat -> Int), already truncated to int as
   the C++ assignments do;
 - the transcendental decay weights pow(E, -(j/TAU)) are an oracle
   parameter (w : Nat -> Rat); the transcendental part of the TAU
   formula 546*pow(E,-0.01*x)+316 is an oracle parameter (tauFn);
 - the C++ double expression totalBelowCP/countBelowCP is NaN when
   countBelowCP = 0; TAU is therefore modelled as Option Rat with
   none standing for NaN;
 - QVector<int> entries that are allocated but never assigned are 0
   (QVector value-initializes); arrays are modelled as functions
   Nat -> Int that return 0 outside the assigned range;
 - the C++ local Match object is re-declared each loop iteration but
   its start field written on match entry occupies the same stack slot
   when the exit iteration reads it; the scan is modelled with start
   carried in the loop state, matching the de-facto behaviour.
-/

namespace GC

/-- One recorded sample: p.secs and p.watts of a RideFilePoint. -/
structure Sample where
  secs : Nat
  watts : Rat
  deriving DecidableEq, Repr

/-- The part of RideFile that setRide consumes. -/
structure RideInput where
  samples : List Sample
  recIntSecs : Nat
  wattsPresent : Bool
  deriving DecidableEq, Repr

/-- External collaborators and transcendental evaluations:
the spline value at each integer second (already truncated to int),
the decay weights pow(E, -(j/TAU)), the function
x -> 546*pow(E, -0.01*x) + 316 used for TAU, and the zone lookup. -/
structure Oracle where
  spline : Nat → Int
  w : Nat → Rat
  tauFn : Rat → Rat
  zonesPresent : Bool
  zoneRange : Int
  getCP : Int
  getWprime : Rat

/-- struct Match: start/stop second indices, duration, cost in joules. -/
structure Match where
  start : Nat
  stop : Nat
  secs : Nat
  cost : Rat
  deriving DecidableEq, Repr

/-- The observable state of a WPrime instance. -/
structure WPrime where
  values : List Rat
  xvalues : List Rat
  minY : Rat
  maxY : Rat
  CP : Int
  WPRIME : Rat
  TAU : Option Rat
  matchesList : List Match
  mvalues : List Rat
  mxvalues : List Rat
  deriving DecidableEq, Repr

/-- const double WprimeMultConst = 1.0 -/
def WprimeMultConst : Rat := 1

/-- const int WprimeDecayPeriod = 1200 -/
def WprimeDecayPeriod : Nat := 1200

/-- const int WprimeMatchSmoothing = 25 -/
def WprimeMatchSmoothing : Nat := 25

/-- const int WprimeMatchMinJoules = 100 -/
def WprimeMatchMinJoules : Rat := 100

/-- The WPrime() constructor: minY = maxY = 0, containers empty. -/
def initWPrime : WPrime :=
  ⟨[], [], 0, 0, 0, 0, some 0, [], [], []⟩

/-- The gap-filling inner loop:
for (int t = lp->secs + recInt; t < p->secs; t += recInt) points << (t, 0).
The 0 < step conjunct makes the definition total; the C++ loop does not
terminate when the recording interval is zero. -/
def gapFill (t stop step : Nat) : List Nat :=
  if _h : 0 < step ∧ t < stop then t :: gapFill (t + step) stop step else []
termination_by stop - t
decreasing_by simp_wf; omega

/-- The points contributed by one sample p given the previous raw sample:
gap-fill zeroes computed against the previous sample (accepted or not),
then p itself when its timestamp strictly increases (or p is first). -/
def pointsOfPair (recInt : Nat) (lp : Option Sample) (p : Sample) : List (Nat × Rat) :=
  match lp with
  | none => [(p.secs, p.watts)]
  | some l =>
      ((gapFill (l.secs + recInt) p.secs recInt).map fun t => (t, (0 : Rat)))
        ++ (if l.secs < p.secs then [(p.secs, p.watts)] else [])

/-- The foreach loop of STEP 1, carrying the previous sample pointer lp. -/
def buildPointsAux (recInt : Nat) (lp : Option Sample) : List Sample → List (Nat × Rat)
  | [] => []
  | p :: rest => pointsOfPair recInt lp p ++ buildPointsAux recInt (some p) rest

/-- The raw point series handed to the spline. -/
def buildPoints (recInt : Nat) (samples : List Sample) : List (Nat × Rat) :=
  buildPointsAux recInt none samples

/-- int last: updated to p->secs for every sample, accepted or not. -/
def lastSecs (samples : List Sample) : Nat :=
  samples.foldl (fun _ p => p.secs) 0

/-- QVector<int> inputArray(last+1): filled for i < last with
value > CP ? value - CP : 0; the slot at index last is never assigned
and stays 0. -/
def inputArrayOf (p : Nat → Int) (CP : Int) (last : Nat) : Nat → Int :=
  fun i => if i < last then (if CP < p i then p i - CP else 0) else 0

/-- countBelowCP: the number of seconds i < last with value < CP. -/
def countBelowCP (p : Nat → Int) (CP : Int) (last : Nat) : Nat :=
  ((List.range last).filter fun i => p i < CP).length

/-- totalBelowCP: the sum of the values strictly below CP. -/
def totalBelowCP (p : Nat → Int) (CP : Int) (last : Nat) : Int :=
  (((List.range last).filter fun i => p i < CP).map p).sum

/-- C++ conversion double -> int: truncation toward zero. -/
def ratTrunc (x : Rat) : Int := Int.tdiv x.num x.den

/-- TAU = int(546*pow(E, -0.01*(CP - totalBelowCP/countBelowCP)) + 316);
the double division is NaN (modelled none) when countBelowCP = 0: the
code has no divide-by-zero guard. -/
def tauOf (o : Oracle) (p : Nat → Int) (CP : Int) (last : Nat) : Option Rat :=
  if countBelowCP p CP last = 0 then none
  else some ((ratTrunc (o.tauFn ((CP : Rat) -
    (totalBelowCP p CP last : Rat) / (countBelowCP p CP last : Rat))) : Int) : Rat)

/-- The inner SUMPRODUCT loop:
for (j = 0; j < 1200 && (i-j) > 0; j++) sum += inputArray.at(i-j)*w(j).
Over the integers (i-j) > 0 is j < i, and the conjunction of the two
bounds is downward closed in j, so the short-circuiting loop adds
exactly the guarded terms. -/
def sumproduct (ex : Nat → Int) (w : Nat → Rat) (i : Nat) : Rat :=
  ∑ j in Finset.range WprimeDecayPeriod, if j < i then (ex (i - j) : Rat) * w j else 0

/-- values[i] = WPRIME - sumproduct * WprimeMultConst. -/
def valuesFn (ex : Nat → Int) (WPRIME : Rat) (w : Nat → Rat) (i : Nat) : Rat :=
  WPRIME - sumproduct ex w i * WprimeMultConst

/-- The running minY: starts at 0, updated when values[i] < minY,
iterating i from last down to 0. -/
def minYOf (vals : Nat → Rat) (last : Nat) : Rat :=
  ((List.range (last + 1)).reverse).foldl (fun m i => if vals i < m then vals i else m) 0

/-- The running maxY: starts at 0, updated when values[i] > maxY. -/
def maxYOf (vals : Nat → Rat) (last : Nat) : Rat :=
  ((List.range (last + 1)).reverse).foldl (fun m i => if m < vals i then vals i else m) 0

/-- smoothArray / rawArray: filled for i < last from the spline, the
slot at index last is never assigned and stays 0. -/
def rawInit (p : Nat → Int) (last : Nat) : Nat → Int :=
  fun i => if i < last then p i else 0

/-- The rolling-average initialisation loop:
for (i = 25; i > 0 && last-i >= 0; i--) rtot += smoothArray[last-i].
The second condition fails immediately when last < 25, leaving rtot 0;
otherwise it sums the 25 entries at indices last-25 .. last-1. -/
def rtotInit (a : Nat → Int) (last : Nat) : Int :=
  if WprimeMatchSmoothing ≤ last then
    (((List.range WprimeMatchSmoothing).map fun k => a (last - WprimeMatchSmoothing + k)).sum)
  else 0

/-- Pointwise update of a function-modelled array. -/
def updateFn (f : Nat → Int) (i : Nat) (v : Int) : Nat → Int :=
  fun k => if k = i then v else f k

/-- The backward rolling-average loop, fuel n standing for the indices
i = 24+n down to 25: smoothArray[i] = rtot/25 (double division then
int truncation), rtot -= old value, rtot += smoothArray[i-25] (an index
not yet overwritten by the backward pass). -/
def smoothGo (a : Nat → Int) (rtot : Int) : Nat → (Nat → Int)
  | 0 => a
  | n + 1 =>
      let i := WprimeMatchSmoothing - 1 + (n + 1)
      let here := a i
      let a2 := updateFn a i (Int.tdiv rtot WprimeMatchSmoothing)
      smoothGo a2 (rtot - here + a2 (i - WprimeMatchSmoothing)) n

/-- The full smoothing pass over the array a with last index last. -/
def smoothedOut (a : Nat → Int) (last : Nat) : Nat → Int :=
  if WprimeMatchSmoothing ≤ last then
    smoothGo a (rtotInit a last) (last - (WprimeMatchSmoothing - 1))
  else a

/-- The boundary refinement loop:
int end = i-1; while (end > match.start && rawArray[end] < CP) end--. -/
def backscan (raw : Nat → Int) (CP : Int) (start : Nat) : Nat → Nat
  | 0 => 0
  | e + 1 => if start < e + 1 ∧ raw (e + 1) < CP then backscan raw CP start e else e + 1

/-- State of the match-detection scan. -/
structure ScanState where
  inmatch : Bool
  start : Nat
  acc : List Match
  deriving Repr

/-- The match emission at an exit index i: refine the end backwards
from i-1, keep the candidate only when end > start and
cost >= WprimeMatchMinJoules. -/
def scanEmit (raw : Nat → Int) (CP : Int) (vals : Nat → Rat)
    (start i : Nat) (acc : List Match) : List Match :=
  let e := backscan raw CP start (i - 1)
  if start < e then
    (if WprimeMatchMinJoules ≤ vals start - vals e then
        acc ++ [⟨start, e, e - start + 1, vals start - vals e⟩]
      else acc)
  else acc

/-- One iteration of the detection scan at index i: enter on
smooth >= CP or raw >= CP, then exit on smooth < CP and raw < CP. -/
def scanStep (sm raw : Nat → Int) (CP : Int) (vals : Nat → Rat)
    (s : ScanState) (i : Nat) : ScanState :=
  let s1 := if s.inmatch = false ∧ (CP ≤ sm i ∨ CP ≤ raw i) then
      ⟨true, i, s.acc⟩ else s
  if s1.inmatch = true ∧ sm i < CP ∧ raw i < CP then
    ⟨false, s1.start, scanEmit raw CP vals s1.start i s1.acc⟩
  else s1

/-- The match list produced by the scan for (int i = 0; i < last; i++). -/
def matchesOf (sm raw : Nat → Int) (CP : Int) (vals : Nat → Rat) (last : Nat) : List Match :=
  ((List.range last).foldl (scanStep sm raw CP vals) ⟨false, 0, []⟩).acc

/-- The reset block at the top of setRide: values/xvalues resized to 0,
minY = maxY = 0, CP = WPRIME = TAU = 0.  The matches, mvalues and
mxvalues containers are NOT touched here. -/
def resetState (s : WPrime) : WPrime :=
  { s with values := [], xvalues := [], minY := 0, maxY := 0,
           CP := 0, WPRIME := 0, TAU := some 0 }

/-- The CP used for the run: 250 by default, getCP for a valid zone
range, 0 when the date has no zone range. -/
def cpOf (o : Oracle) : Int :=
  if o.zonesPresent then (if 0 ≤ o.zoneRange then o.getCP else 0) else 250

/-- The WPRIME used for the run: reset to 0, getWprime for a valid
zone range. -/
def wprimeOf (o : Oracle) : Rat :=
  if o.zonesPresent then (if 0 ≤ o.zoneRange then o.getWprime else 0) else 0

/-- The non-degenerate body of setRide.  Every field is overwritten,
so the previous state does not appear. -/
def runPipeline (inp : RideInput) (o : Oracle) : WPrime :=
  let last := lastSecs inp.samples
  let CP := cpOf o
  let WPRIME := wprimeOf o
  let ex := inputArrayOf o.spline CP last
  let vals := valuesFn ex WPRIME o.w
  let a := rawInit o.spline last
  let sm := smoothedOut a last
  let ms := matchesOf sm a CP vals last
  { values := (List.range (last + 1)).map vals,
    xvalues := (List.range (last + 1)).map fun i => (i : Rat) / 60,
    minY := minYOf vals last,
    maxY := maxYOf vals last,
    CP := CP,
    WPRIME := WPRIME,
    TAU := tauOf o o.spline CP last,
    matchesList := ms,
    mvalues := ms.foldl
      (fun acc m => if 2000 ≤ m.cost then acc ++ [vals m.start, vals m.stop] else acc) [],
    mxvalues := ms.foldl
      (fun acc m => if 2000 ≤ m.cost then acc ++ [(m.start : Rat) / 60, (m.stop : Rat) / 60] else acc) [] }

/-- WPrime::setRide.  A none input models a null RideFile pointer. -/
def setRide (s : WPrime) (input : Option RideInput) (o : Oracle) : WPrime :=
  let s0 := resetState s
  match input with
  | none => s0
  | some inp =>
      if inp.samples = [] ∨ inp.wattsPresent = false then s0
      else runPipeline inp o

/-- Display metadata of the MinWPrime metric. -/
structure MetricInfo where
  symbol : String
  precision : Nat
  canAggregate : Bool
  deriving DecidableEq, Repr

/-- MinWPrime: symbol skiba_wprime_low, precision 1, not aggregatable. -/
def minWPrimeMetric : MetricInfo :=
  ⟨"skiba_wprime_low", 1, false⟩

/-- MinWPrime::compute: run setRide on a fresh WPrime and return
minY/1000. -/
def minWPrimeCompute (input : Option RideInput) (o : Oracle) : Rat :=
  (setRide initWPrime input o).minY / 1000


/-- The property every emitted match enjoys, tagged with the scan index i
at which the exit condition fired. -/
def emittedAt (raw : Nat → Int) (CP : Int) (vals : Nat → Rat) (i : Nat) (m : Match) : Prop :=
  m.start < m.stop ∧ m.stop + 1 ≤ i ∧ CP ≤ raw m.stop ∧ raw (m.stop + 1) < CP ∧
  m.cost = vals m.start - vals m.stop ∧ WprimeMatchMinJoules ≤ m.cost ∧
  m.secs = m.stop - m.start + 1

/-- Closed form of the point construction: each sample zipped with its
immediate raw predecessor contributes its gap-fill zeroes and, when its
timestamp strictly increases, itself. -/
def pointsClosedForm (recInt : Nat) (samples : List Sample) : List (Nat × Rat) :=
  (((none :: samples.map some).zip samples).map fun pr => pointsOfPair recInt pr.1 pr.2).flatten

/-- An oracle whose collaborator values are all trivial. -/
def oTrivial : Oracle := ⟨(fun _ => 0), (fun _ => 1), (fun _ => 0), false, 0, 0, 0⟩

/-- Constant decay weights; the code weight pow(E, -(j/TAU)) equals 1
at j = 0, the only index the small counterexamples below evaluate. -/
def wOne : Nat → Rat := fun _ => 1

/-- Interpolated series for the C1 counterexample: power 350 at the
final second, 0 before. -/
def c1p : Nat → Int := fun i => if i = 0 then 0 else 350

/-- A 100-second ride whose interpolated series holds a 20-second
surge to 300 W over a 200 W critical power. -/
def rideA : RideInput := ⟨[⟨0, 100⟩, ⟨100, 100⟩], 1, true⟩

/-- Oracle for rideA: CP 200, WPRIME 20000, surge on seconds 10..29. -/
def oracleA : Oracle :=
  ⟨(fun i => if 10 ≤ i ∧ i < 30 then 300 else 100), (fun _ => 1), (fun _ => 0), true, 0, 200, 20000⟩

/-- A ride whose every interpolated second is 300 W. -/
def rideB : RideInput := ⟨[⟨0, 300⟩, ⟨10, 300⟩], 1, true⟩

/-- Oracle for rideB: CP 250, so no second is below CP. -/
def oracleB : Oracle :=
  ⟨(fun _ => 300), (fun _ => 1), (fun _ => 0), true, 0, 250, 20000⟩

/-- A short ride entirely below CP. -/
def rideC : RideInput := ⟨[⟨0, 100⟩, ⟨3, 100⟩], 1, true⟩

/-- Oracle for rideC: constant 100 W against CP 200, WPRIME 20000. -/
def oracleC : Oracle :=
  ⟨(fun _ => 100), (fun _ => 1), (fun _ => 0), true, 0, 200, 20000⟩

/-- Raw/smoothed series for the C5 witness scan. -/
def raw5 : Nat → Int := fun i => if 2 ≤ i ∧ i < 5 then 300 else 100

/-- Depletion series for the C5 witness scan. -/
def vals5 : Nat → Rat := fun i => if i < 3 then 500 else 300

/-- The match the C5 witness scan emits. -/
def m5 : Match := ⟨2, 4, 3, 200⟩

/-- Raw/smoothed series for the C6 witness: above CP on 2..4 and from
second 20 through the end of the scan. -/
def raw6 : Nat → Int := fun i => if 2 ≤ i ∧ i < 5 then 300 else (if 20 ≤ i then 300 else 100)

/-- Depletion series for the C6 witness scan. -/
def vals6 : Nat → Rat := fun i => if i < 3 then 500 else 300

/-- The single closed match of the C6 witness scan. -/
def m6 : Match := ⟨2, 4, 3, 200⟩

/-- Samples with a backward timestamp: 10, then 5, then 6. -/
def rideD : RideInput := ⟨[⟨10, 100⟩, ⟨5, 50⟩, ⟨6, 60⟩], 1, true⟩

/-- Two samples five seconds apart at a one-second recording interval. -/
def rideE : RideInput := ⟨[⟨0, 100⟩, ⟨5, 100⟩], 1, true⟩

/-- Samples with a rejected middle sample: 6, then 3, then 12, at a
two-second recording interval. -/
def c8samples : List Sample := [⟨6, 100⟩, ⟨3, 50⟩, ⟨12, 100⟩]

/-- Raw array for the C9 counterexample: length-27 series (last = 26)
that is 25 at index 1 and 0 elsewhere. -/
def a9 : Nat → Int := fun k => if k = 1 then 25 else 0

/-- Series for the C10 witness, differing from qW only at second 5. -/
def pW : Nat → Int := fun i => if i < 5 then 100 else 999

/-- Series for the C10 witness, differing from pW only at second 5. -/
def qW : Nat → Int := fun i => if i < 5 then 100 else 0


/-- The guarded sum of the inner loop equals the sum over the clean
index range min N i. -/
theorem sum_ite_range_min (f : Nat → Rat) (N i : Nat) :
    (∑ j in Finset.range N, if j < i then f j else 0) = ∑ j in Finset.range (min N i), f j := by
  rw [← Finset.sum_filter]
  congr 1
  ext j
  simp only [Finset.mem_filter, Finset.mem_range, lt_min_iff]

/-- The SUMPRODUCT loop in closed form: it adds the min(1200, i)
guarded terms. -/
theorem sumproduct_min (ex : Nat → Int) (w : Nat → Rat) (i : Nat) :
    sumproduct ex w i
      = ∑ j in Finset.range (min WprimeDecayPeriod i), ((ex (i - j) : Int) : Rat) * w j :=
  sum_ite_range_min (fun j => ((ex (i - j) : Int) : Rat) * w j) WprimeDecayPeriod i

/-- The depletion series in closed form, as a function. -/
theorem valuesFn_closed (ex : Nat → Int) (WPRIME : Rat) (w : Nat → Rat) :
    valuesFn ex WPRIME w
      = fun i => WPRIME - ∑ j in Finset.range (min WprimeDecayPeriod i), ((ex (i - j) : Int) : Rat) * w j := by
  funext i
  unfold valuesFn WprimeMultConst
  rw [mul_one, sumproduct_min]

/-- A non-degenerate input runs the full pipeline. -/
theorem setRide_nondegen (s : WPrime) (inp : RideInput) (o : Oracle)
    (h1 : inp.samples ≠ []) (h2 : inp.wattsPresent = true) :
    setRide s (some inp) o = runPipeline inp o := by
  simp [setRide, h1, h2]

/-- The match list of a pipeline run, spelled out. -/
theorem runPipeline_matches (inp : RideInput) (o : Oracle) :
    (runPipeline inp o).matchesList
      = matchesOf (smoothedOut (rawInit o.spline (lastSecs inp.samples)) (lastSecs inp.samples))
          (rawInit o.spline (lastSecs inp.samples)) (cpOf o)
          (valuesFn (inputArrayOf o.spline (cpOf o) (lastSecs inp.samples)) (wprimeOf o) o.w)
          (lastSecs inp.samples) := rfl

/-- The depletion list of a pipeline run, spelled out. -/
theorem runPipeline_values (inp : RideInput) (o : Oracle) :
    (runPipeline inp o).values
      = (List.range (lastSecs inp.samples + 1)).map
          (valuesFn (inputArrayOf o.spline (cpOf o) (lastSecs inp.samples)) (wprimeOf o) o.w) := rfl

/-- The running minimum of a pipeline run, spelled out. -/
theorem runPipeline_minY (inp : RideInput) (o : Oracle) :
    (runPipeline inp o).minY
      = minYOf (valuesFn (inputArrayOf o.spline (cpOf o) (lastSecs inp.samples)) (wprimeOf o) o.w)
          (lastSecs inp.samples) := rfl

/-- Claim C1 (amended: at index lastSecond the excess slot is never
assigned and holds 0, rather than max(0, series - CP)): with thresholds
fixed for a run, depletion i = WPRIME minus the decayed sum of the
trailing min(1200, i) excess terms; for k below lastSecond the excess
is max(0, series k - CP); and the sum at i = 0 is empty, so
depletion 0 = WPRIME. -/
theorem c1_depletion (p : Nat → Int) (CP : Int) (WPRIME : Rat) (w : Nat → Rat) (last i : Nat) :
    valuesFn (inputArrayOf p CP last) WPRIME w i
      = WPRIME - ∑ j in Finset.range (min 1200 i), ((inputArrayOf p CP last (i - j) : Int) : Rat) * w j
    ∧ (∀ k, k < last → inputArrayOf p CP last k = max 0 (p k - CP))
    ∧ (∀ k, last ≤ k → inputArrayOf p CP last k = 0)
    ∧ valuesFn (inputArrayOf p CP last) WPRIME w 0 = WPRIME := by
  refine ⟨?_, ?_, ?_, ?_⟩
  · rw [valuesFn_closed]
    rfl
  · intro k hk
    unfold inputArrayOf
    rw [if_pos hk]
    rcases lt_or_le CP (p k) with h | h
    · rw [if_pos h, max_eq_right (by omega)]
    · rw [if_neg (by omega), max_eq_left (by omega)]
  · intro k hk
    unfold inputArrayOf
    rw [if_neg (by omega)]
  · rw [valuesFn_closed]
    simp [WprimeDecayPeriod]

/-- Claim C1 counterexample: a run with lastSecond = 1 whose final
second interpolates to 350 W over CP 250.  The claimed formula at
i = 1 has the single term excess(1)*pow(E, 0) = max(0, 350-250)*1
and yields 19900, but the code, whose excess slot at the last index
is never assigned, yields 20000. -/
theorem c1_counterexample :
    valuesFn (inputArrayOf c1p 250 1) 20000 wOne 1 = 20000
    ∧ ((20000 : Rat) - ∑ j in Finset.range (min 1200 1), ((max 0 (c1p (1 - j) - 250) : Int) : Rat) * wOne j) = 19900
    ∧ (20000 : Rat) ≠ 19900 := by
  refine ⟨?_, ?_, ?_⟩
  · rw [valuesFn_closed]
    with_unfolding_all rfl
  · with_unfolding_all rfl
  · norm_num

/-- Claim C1 witness: the amended theorem applied at the series c1p
with last = 1, at k = 0 and i = 0. -/
theorem c1_depletion_witness :
    inputArrayOf c1p 250 1 0 = max 0 (c1p 0 - 250)
    ∧ valuesFn (inputArrayOf c1p 250 1) 20000 wOne 0 = 20000 :=
  ⟨(c1_depletion c1p 250 20000 wOne 1 0).2.1 0 (by decide),
   (c1_depletion c1p 250 20000 wOne 1 0).2.2.2⟩

/-- Claim C2 (amended: the early exit resets the series, minY, maxY,
CP, WPRIME and TAU, but does NOT clear the match containers, which keep
whatever a previous run of the same instance left in them): a null
input, an empty sample list, or an absent power channel makes setRide
return right after the reset block. -/
theorem c2_degenerate_reset (s : WPrime) (input : Option RideInput) (o : Oracle)
    (h : input = none ∨ ∃ inp, input = some inp ∧ (inp.samples = [] ∨ inp.wattsPresent = false)) :
    (setRide s input o).values = []
    ∧ (setRide s input o).xvalues = []
    ∧ (setRide s input o).minY = 0
    ∧ (setRide s input o).maxY = 0
    ∧ (setRide s input o).CP = 0
    ∧ (setRide s input o).WPRIME = 0
    ∧ (setRide s input o).TAU = some 0
    ∧ (setRide s input o).matchesList = s.matchesList
    ∧ (setRide s input o).mvalues = s.mvalues
    ∧ (setRide s input o).mxvalues = s.mxvalues := by
  have hred : setRide s input o = resetState s := by
    rcases h with h | ⟨inp, hinp, hdeg⟩
    · rw [h]
      rfl
    · rw [hinp]
      show (if inp.samples = [] ∨ inp.wattsPresent = false then resetState s
            else runPipeline inp o) = resetState s
      rw [if_pos hdeg]
  rw [hred]
  exact ⟨rfl, rfl, rfl, rfl, rfl, rfl, rfl, rfl, rfl, rfl⟩

/-- Claim C2 witness: the amended theorem applied to a null input on a
fresh instance. -/
theorem c2_degenerate_reset_witness :
    (setRide initWPrime none oTrivial).values = []
    ∧ (setRide initWPrime none oTrivial).CP = 0
    ∧ (setRide initWPrime none oTrivial).matchesList = initWPrime.matchesList := by
  have h := c2_degenerate_reset initWPrime none oTrivial (Or.inl rfl)
  exact ⟨h.1, h.2.2.2.2.1, h.2.2.2.2.2.2.2.1⟩

/-- Claim C2 counterexample: a run of rideA leaves one match of cost
1900 joules; a following run of the same instance on a null input
returns with that match list intact instead of empty. -/
theorem c2_counterexample :
    (setRide initWPrime (some rideA) oracleA).matchesList ≠ []
    ∧ (setRide (setRide initWPrime (some rideA) oracleA) none oracleA).matchesList
        = (setRide initWPrime (some rideA) oracleA).matchesList
    ∧ (setRide (setRide initWPrime (some rideA) oracleA) none oracleA).matchesList ≠ [] := by
  have hnd : setRide initWPrime (some rideA) oracleA = runPipeline rideA oracleA :=
    setRide_nondegen _ _ _ (by decide) rfl
  have hm : (runPipeline rideA oracleA).matchesList = [⟨10, 29, 20, 1900⟩] := by
    rw [runPipeline_matches, valuesFn_closed]
    with_unfolding_all rfl
  have hkeep : ∀ s : WPrime, (setRide s none oracleA).matchesList = s.matchesList :=
    fun s => rfl
  rw [hnd]
  refine ⟨by rw [hm]; simp, by rw [hkeep], by rw [hkeep, hm]; simp⟩

/-- Claim C3: rideB never drops below its CP of 250, so countBelowCP
is 0 and the unguarded double division totalBelowCP/countBelowCP
inside the TAU assignment is 0/0: TAU becomes NaN (modelled none),
not a finite value. -/
theorem c3_tau_nan :
    countBelowCP oracleB.spline 250 (lastSecs rideB.samples) = 0
    ∧ (setRide initWPrime (some rideB) oracleB).TAU = none := by
  refine ⟨by decide, ?_⟩
  rw [setRide_nondegen _ _ _ (by decide) rfl]
  with_unfolding_all rfl

/-- The minY update step written with min. -/
theorem minY_fold_min (vals : Nat → Rat) :
    ∀ (L : List Nat) (m : Rat),
      L.foldl (fun a i => if vals i < a then vals i else a) m
        = L.foldl (fun a i => min a (vals i)) m := by
  intro L
  induction L with
  | nil => intro m; rfl
  | cons j t ih =>
      intro m
      simp only [List.foldl_cons]
      rw [ih]
      congr 1
      rcases lt_or_le (vals j) m with h | h
      · rw [if_pos h, min_eq_right (le_of_lt h)]
      · rw [if_neg (not_lt.mpr h), min_eq_left h]

/-- A min fold never exceeds its seed. -/
theorem foldl_min_le_init (vals : Nat → Rat) :
    ∀ (L : List Nat) (m : Rat), L.foldl (fun a i => min a (vals i)) m ≤ m := by
  intro L
  induction L with
  | nil => intro m; exact le_refl m
  | cons j t ih =>
      intro m
      simp only [List.foldl_cons]
      exact le_trans (ih _) (min_le_left _ _)

/-- A min fold never exceeds any visited value. -/
theorem foldl_min_le_mem (vals : Nat → Rat) :
    ∀ (L : List Nat) (m : Rat) (i : Nat), i ∈ L →
      L.foldl (fun a i => min a (vals i)) m ≤ vals i := by
  intro L
  induction L with
  | nil => intro m i hi; exact absurd hi (List.not_mem_nil i)
  | cons j t ih =>
      intro m i hi
      simp only [List.foldl_cons]
      rcases List.mem_cons.mp hi with h | h
      · subst h
        exact le_trans (foldl_min_le_init vals t _) (min_le_right _ _)
      · exact ih _ i h

/-- A min fold returns its seed or a visited value. -/
theorem foldl_min_mem_or (vals : Nat → Rat) :
    ∀ (L : List Nat) (m : Rat),
      L.foldl (fun a i => min a (vals i)) m = m
      ∨ ∃ i, i ∈ L ∧ L.foldl (fun a i => min a (vals i)) m = vals i := by
  intro L
  induction L with
  | nil => intro m; exact Or.inl rfl
  | cons j t ih =>
      intro m
      simp only [List.foldl_cons]
      rcases ih (min m (vals j)) with h | ⟨i, hi, he⟩
      · rcases min_cases m (vals j) with ⟨he2, _⟩ | ⟨he2, _⟩
        · exact Or.inl (by rw [h, he2])
        · exact Or.inr ⟨j, List.mem_cons_self j t, by rw [h, he2]⟩
      · exact Or.inr ⟨i, List.mem_cons_of_mem j hi, he⟩

/-- The running minY equals the minimum of 0 and the pointwise minimum
of the series over 0..last. -/
theorem minYOf_eq_min (vals : Nat → Rat) (last : Nat) :
    minYOf vals last
      = min 0 (Finset.inf' (Finset.range (last + 1))
          ⟨0, Finset.mem_range.mpr (Nat.succ_pos last)⟩ vals) := by
  have hfold : minYOf vals last
      = ((List.range (last + 1)).reverse).foldl (fun a i => min a (vals i)) 0 :=
    minY_fold_min vals ((List.range (last + 1)).reverse) 0
  apply le_antisymm
  · refine le_min ?_ ?_
    · rw [hfold]
      exact foldl_min_le_init vals _ 0
    · obtain ⟨i0, hi0, he⟩ := Finset.exists_mem_eq_inf'
        (⟨0, Finset.mem_range.mpr (Nat.succ_pos last)⟩ :
          (Finset.range (last + 1)).Nonempty) vals
      rw [hfold, he]
      apply foldl_min_le_mem
      rw [List.mem_reverse, List.mem_range]
      exact Finset.mem_range.mp hi0
  · rw [hfold]
    rcases foldl_min_mem_or vals ((List.range (last + 1)).reverse) 0 with h | ⟨i, hi, he⟩
    · rw [h]
      exact min_le_left _ _
    · rw [he]
      refine le_trans (min_le_right _ _) (Finset.inf'_le vals ?_)
      rw [List.mem_reverse, List.mem_range] at hi
      exact Finset.mem_range.mpr hi

/-- Claim C4 (amended: the metric is minY/1000 where minY is the
running minimum SEEDED AT ZERO, i.e. min(0, min of the depletion
series)/1000, which differs from min(series)/1000 whenever the series
stays positive); the metric is not aggregatable and reports one
decimal place. -/
theorem c4_min_metric (input : Option RideInput) (o : Oracle) :
    minWPrimeCompute input o = (setRide initWPrime input o).minY / 1000
    ∧ minWPrimeMetric.canAggregate = false
    ∧ minWPrimeMetric.precision = 1
    ∧ ∀ (vals : Nat → Rat) (last : Nat),
        minYOf vals last
          = min 0 (Finset.inf' (Finset.range (last + 1))
              ⟨0, Finset.mem_range.mpr (Nat.succ_pos last)⟩ vals) :=
  ⟨rfl, rfl, rfl, fun vals last => minYOf_eq_min vals last⟩

/-- Claim C4 witness: the amended theorem applied to rideC. -/
theorem c4_min_metric_witness :
    minWPrimeCompute (some rideC) oracleC
      = (setRide initWPrime (some rideC) oracleC).minY / 1000
    ∧ minWPrimeMetric.canAggregate = false :=
  ⟨(c4_min_metric (some rideC) oracleC).1, (c4_min_metric (some rideC) oracleC).2.1⟩

/-- Claim C4 counterexample: rideC stays below CP, so every depletion
value is WPRIME = 20000 and min(series)/1000 = 20, but the metric
returns minY/1000 = 0 because minY is seeded at 0 and never updated
by positive values. -/
theorem c4_counterexample :
    (setRide initWPrime (some rideC) oracleC).values = [20000, 20000, 20000, 20000]
    ∧ minWPrimeCompute (some rideC) oracleC = 0
    ∧ ((20000 : Rat) / 1000 ≠ 0) := by
  have hnd : setRide initWPrime (some rideC) oracleC = runPipeline rideC oracleC :=
    setRide_nondegen _ _ _ (by decide) rfl
  refine ⟨?_, ?_, by norm_num⟩
  · rw [hnd, runPipeline_values, valuesFn_closed]
    with_unfolding_all rfl
  · unfold minWPrimeCompute
    rw [hnd, runPipeline_minY, valuesFn_closed]
    with_unfolding_all rfl

/-- The boundary refinement never moves forward. -/
theorem backscan_le (raw : Nat → Int) (CP : Int) (start : Nat) :
    ∀ e : Nat, backscan raw CP start e ≤ e := by
  intro e
  induction e with
  | zero => simp [backscan]
  | succ n ih =>
      simp only [backscan]
      split
      · exact le_trans ih (Nat.le_succ n)
      · exact Nat.le_refl _

/-- When the refinement lands strictly after start, it landed on a
second at or above CP. -/
theorem backscan_stop (raw : Nat → Int) (CP : Int) (start : Nat) :
    ∀ e : Nat, start < backscan raw CP start e → CP ≤ raw (backscan raw CP start e) := by
  intro e
  induction e with
  | zero =>
      intro h
      simp only [backscan] at h
      exact absurd h (Nat.not_lt_zero start)
  | succ n ih =>
      intro h
      simp only [backscan] at h ⊢
      by_cases hc : start < n + 1 ∧ raw (n + 1) < CP
      · rw [if_pos hc] at h ⊢
        exact ih h
      · rw [if_neg hc] at h ⊢
        rcases not_and_or.mp hc with h1 | h2
        · exact absurd h h1
        · exact le_of_not_lt h2

/-- Every second the refinement scanned past is below CP. -/
theorem backscan_scanned (raw : Nat → Int) (CP : Int) (start : Nat) :
    ∀ e x : Nat, backscan raw CP start e < x → x ≤ e → raw x < CP := by
  intro e
  induction e with
  | zero =>
      intro x h1 h2
      simp only [backscan] at h1
      omega
  | succ n ih =>
      intro x h1 h2
      simp only [backscan] at h1
      by_cases hc : start < n + 1 ∧ raw (n + 1) < CP
      · rw [if_pos hc] at h1
        rcases eq_or_lt_of_le h2 with h3 | h3
        · rw [h3]
          exact hc.2
        · exact ih x h1 (Nat.lt_succ_iff.mp h3)
      · rw [if_neg hc] at h1
        omega

/-- Whatever scanEmit appends at exit index i is emittedAt i. -/
theorem scanEmit_mem (raw : Nat → Int) (CP : Int) (vals : Nat → Rat) (start i : Nat)
    (acc : List Match) (m : Match) (hexit : raw i < CP)
    (hm : m ∈ scanEmit raw CP vals start i acc) :
    m ∈ acc ∨ emittedAt raw CP vals i m := by
  simp only [scanEmit] at hm
  by_cases h1 : start < backscan raw CP start (i - 1)
  · rw [if_pos h1] at hm
    by_cases h2 : WprimeMatchMinJoules ≤ vals start - vals (backscan raw CP start (i - 1))
    · rw [if_pos h2] at hm
      rcases List.mem_append.mp hm with h | h
      · exact Or.inl h
      · right
        have hmeq := List.mem_singleton.mp h
        subst hmeq
        have hle : backscan raw CP start (i - 1) ≤ i - 1 := backscan_le raw CP start (i - 1)
        have hi1 : backscan raw CP start (i - 1) + 1 ≤ i := by omega
        refine ⟨h1, hi1, backscan_stop raw CP start (i - 1) h1, ?_, rfl, h2, rfl⟩
        rcases eq_or_lt_of_le hi1 with h3 | h3
        · rw [h3]
          exact hexit
        · exact backscan_scanned raw CP start (i - 1)
            (backscan raw CP start (i - 1) + 1) (Nat.lt_succ_self _) (by omega)
    · rw [if_neg h2] at hm
      exact Or.inl hm
  · rw [if_neg h1] at hm
    exact Or.inl hm

/-- One scan step only appends matches that are emittedAt its index. -/
theorem scanStep_mem (sm raw : Nat → Int) (CP : Int) (vals : Nat → Rat) (s : ScanState)
    (i : Nat) (m : Match) (hm : m ∈ (scanStep sm raw CP vals s i).acc) :
    m ∈ s.acc ∨ emittedAt raw CP vals i m := by
  by_cases h1 : s.inmatch = false ∧ (CP ≤ sm i ∨ CP ≤ raw i)
  · by_cases h2 : sm i < CP ∧ raw i < CP
    · simp [scanStep, h1, h2] at hm
      exact scanEmit_mem raw CP vals i i s.acc m h2.2 hm
    · simp [scanStep, h1, h2] at hm
      exact Or.inl hm
  · by_cases h2 : s.inmatch = true ∧ sm i < CP ∧ raw i < CP
    · simp [scanStep, h1, h2] at hm
      exact scanEmit_mem raw CP vals s.start i s.acc m h2.2.2 hm
    · simp [scanStep, h1, h2] at hm
      exact Or.inl hm

/-- Folding the scan over any index list only accumulates matches
emittedAt one of the visited indices. -/
theorem scan_fold_mem (sm raw : Nat → Int) (CP : Int) (vals : Nat → Rat) :
    ∀ (L : List Nat) (s : ScanState) (m : Match),
      m ∈ (L.foldl (scanStep sm raw CP vals) s).acc →
      m ∈ s.acc ∨ ∃ i, i ∈ L ∧ emittedAt raw CP vals i m := by
  intro L
  induction L with
  | nil => intro s m hm; exact Or.inl hm
  | cons j t ih =>
      intro s m hm
      rw [List.foldl_cons] at hm
      rcases ih (scanStep sm raw CP vals s j) m hm with h | ⟨i, hi, he⟩
      · rcases scanStep_mem sm raw CP vals s j m h with h2 | h2
        · exact Or.inl h2
        · exact Or.inr ⟨j, List.mem_cons_self j t, h2⟩
      · exact Or.inr ⟨i, List.mem_cons_of_mem j hi, he⟩

/-- Every match in the scan output was emitted at some exit index
strictly below last. -/
theorem matchesOf_mem (sm raw : Nat → Int) (CP : Int) (vals : Nat → Rat) (last : Nat)
    (m : Match) (hm : m ∈ matchesOf sm raw CP vals last) :
    ∃ i, i < last ∧ emittedAt raw CP vals i m := by
  unfold matchesOf at hm
  rcases scan_fold_mem sm raw CP vals (List.range last) ⟨false, 0, []⟩ m hm with h | ⟨i, hi, he⟩
  · exact absurd h (List.not_mem_nil m)
  · exact ⟨i, List.mem_range.mp hi, he⟩

/-- Claim C5: every returned match has stop > start, cost at least
WprimeMatchMinJoules = 100 joules, cost equal to
depletion(start) - depletion(stop), and its stop is the refined
backward-scan boundary: raw(stop) at or above CP while raw(stop+1)
is below CP. -/
theorem c5_match_invariant (sm raw : Nat → Int) (CP : Int) (vals : Nat → Rat) (last : Nat)
    (m : Match) (hm : m ∈ matchesOf sm raw CP vals last) :
    m.start < m.stop
    ∧ WprimeMatchMinJoules ≤ m.cost
    ∧ m.cost = vals m.start - vals m.stop
    ∧ CP ≤ raw m.stop
    ∧ raw (m.stop + 1) < CP := by
  obtain ⟨i, hi, he⟩ := matchesOf_mem sm raw CP vals last m hm
  exact ⟨he.1, he.2.2.2.2.2.1, he.2.2.2.2.1, he.2.2.1, he.2.2.2.1⟩

/-- Claim C5 witness: the invariant applied to the single match the
scan over raw5 produces. -/
theorem c5_match_invariant_witness :
    m5 ∈ matchesOf raw5 raw5 200 vals5 8
    ∧ (m5.start < m5.stop
       ∧ WprimeMatchMinJoules ≤ m5.cost
       ∧ m5.cost = vals5 m5.start - vals5 m5.stop
       ∧ (200 : Int) ≤ raw5 m5.stop
       ∧ raw5 (m5.stop + 1) < 200) := by
  have hs : matchesOf raw5 raw5 200 vals5 8 = [m5] := by with_unfolding_all rfl
  have hmem : m5 ∈ matchesOf raw5 raw5 200 vals5 8 := by
    rw [hs]
    exact List.mem_singleton.mpr rfl
  exact ⟨hmem, c5_match_invariant raw5 raw5 200 vals5 8 m5 hmem⟩

/-- Claim C6: if the raw series stays at or above CP from second s to
the end of the scan range, then no emitted match reaches second s: a
match entered there is never closed and never emitted. -/
theorem c6_no_trailing_match (sm raw : Nat → Int) (CP : Int) (vals : Nat → Rat)
    (last s : Nat) (hcp : ∀ k, k < last → s ≤ k → CP ≤ raw k) (m : Match)
    (hm : m ∈ matchesOf sm raw CP vals last) :
    m.start < s ∧ m.stop + 1 < s := by
  obtain ⟨i, hi, he⟩ := matchesOf_mem sm raw CP vals last m hm
  obtain ⟨ha, hb, _, hd, _⟩ := he
  have hlt : m.stop + 1 < last := by omega
  have h2 : m.stop + 1 < s := by
    by_contra hcon
    push_neg at hcon
    exact absurd (hcp (m.stop + 1) hlt hcon) (not_le.mpr hd)
  exact ⟨by omega, h2⟩

/-- Claim C6 witness: raw6 stays at or above CP 200 from second 20 to
the end; the only emitted match closed before second 20. -/
theorem c6_no_trailing_match_witness :
    m6.start < 20 ∧ m6.stop + 1 < 20 := by
  have hs : matchesOf raw6 raw6 200 vals6 25 = [m6] := by with_unfolding_all rfl
  have hmem : m6 ∈ matchesOf raw6 raw6 200 vals6 25 := by
    rw [hs]
    exact List.mem_singleton.mpr rfl
  exact c6_no_trailing_match raw6 raw6 200 vals6 25 20 (by decide) m6 hmem

/-- The point construction in closed form: each sample is paired with
its immediate raw predecessor. -/
theorem buildPointsAux_closed (recInt : Nat) :
    ∀ (samples : List Sample) (lp : Option Sample),
      buildPointsAux recInt lp samples
        = (((lp :: samples.map some).zip samples).map
            fun pr => pointsOfPair recInt pr.1 pr.2).flatten := by
  intro samples
  induction samples with
  | nil => intro lp; rfl
  | cons p rest ih =>
      intro lp
      simp only [buildPointsAux, List.map_cons, List.zip_cons_cons, List.flatten_cons]
      rw [ih (some p)]

/-- Claim C7 (amended: a sample is accepted iff it is first or its
timestamp strictly exceeds the timestamp of the IMMEDIATELY PRECEDING
RAW sample, accepted or not; and the dense output length is the LAST
RAW sample timestamp plus one, whether or not that sample was
accepted). -/
theorem c7_resample (recInt : Nat) (samples : List Sample) (s : WPrime) (o : Oracle)
    (inp : RideInput) (h1 : inp.samples = samples) (h2 : samples ≠ [])
    (h3 : inp.wattsPresent = true) :
    buildPoints recInt samples = pointsClosedForm recInt samples
    ∧ (setRide s (some inp) o).values.length = lastSecs samples + 1 := by
  constructor
  · exact buildPointsAux_closed recInt samples none
  · rw [setRide_nondegen s inp o (h1 ▸ h2) h3, runPipeline_values, h1]
    simp [List.length_map, List.length_range]

/-- Claim C7 witness: the amended theorem applied to rideE. -/
theorem c7_resample_witness :
    (setRide initWPrime (some rideE) oTrivial).values.length = lastSecs rideE.samples + 1 :=
  (c7_resample 1 rideE.samples initWPrime oTrivial rideE rfl (by decide) rfl).2

/-- Claim C7 counterexample: in rideD the sample at t = 6 follows a
rejected sample at t = 5 after one at t = 10.  The claim says t = 6 is
rejected (6 < 10, the last ACCEPTED timestamp) and the output length is
lastAccepted + 1 = 11; the code accepts t = 6 (compared against the
raw predecessor t = 5) and sizes the arrays from the final raw sample:
length 7. -/
theorem c7_counterexample :
    ((6 : Nat), (60 : Rat)) ∈ buildPoints 1 rideD.samples
    ∧ (setRide initWPrime (some rideD) oTrivial).values.length = 7
    ∧ (7 : Nat) ≠ 10 + 1 := by
  refine ⟨?_, ?_, by decide⟩
  · have h : buildPoints 1 rideD.samples = [(10, 100), (6, 60)] := by
      with_unfolding_all rfl
    rw [h]
    exact List.mem_cons_of_mem _ (List.mem_singleton.mpr rfl)
  · rw [setRide_nondegen _ _ _ (by decide) rfl, runPipeline_values]
    simp [List.length_map, List.length_range]
    rfl

/-- Every multiple of the step that starts one step after t0 and stays
below stop is produced by the gap-fill loop. -/
theorem gapFill_mem (step : Nat) (hstep : 0 < step) :
    ∀ (n t0 stop : Nat), t0 + n * step < stop → t0 + n * step ∈ gapFill t0 stop step := by
  intro n
  induction n with
  | zero =>
      intro t0 stop h
      rw [Nat.zero_mul, Nat.add_zero] at h ⊢
      rw [gapFill, dif_pos ⟨hstep, h⟩]
      exact List.mem_cons_self _ _
  | succ k ih =>
      intro t0 stop h
      have h0 : 0 < (k + 1) * step := Nat.mul_pos (Nat.succ_pos k) hstep
      have ht0 : t0 < stop := by omega
      rw [gapFill, dif_pos ⟨hstep, ht0⟩]
      have heq : t0 + (k + 1) * step = (t0 + step) + k * step := by ring
      rw [heq] at h ⊢
      exact List.mem_cons_of_mem _ (ih (t0 + step) stop h)

/-- Gap-fill zeroes of any consecutive raw pair appear in the built
point series. -/
theorem zip_gapfill_mem (recInt : Nat) :
    ∀ (samples : List Sample) (lp : Option Sample) (l p : Sample) (x : Nat),
      (l, p) ∈ samples.zip samples.tail →
      x ∈ gapFill (l.secs + recInt) p.secs recInt →
      (x, (0 : Rat)) ∈ buildPointsAux recInt lp samples := by
  intro samples
  induction samples with
  | nil =>
      intro lp l p x hmem _
      simp at hmem
  | cons p0 rest ih =>
      intro lp l p x hmem hx
      cases rest with
      | nil => simp at hmem
      | cons p1 rest2 =>
          simp only [List.tail_cons, List.zip_cons_cons] at hmem
          rcases List.mem_cons.mp hmem with h | h
          · obtain ⟨hl, hp⟩ := Prod.mk.injEq l p p0 p1 ▸ h
            subst hl
            subst hp
            simp only [buildPointsAux]
            apply List.mem_append_right
            apply List.mem_append_left
            simp only [pointsOfPair]
            apply List.mem_append_left
            exact List.mem_map.mpr ⟨x, hx, rfl⟩
          · simp only [buildPointsAux]
            apply List.mem_append_right
            exact ih (some p0) l p x (by simpa using h) hx

/-- Claim C8 (amended: the zero fill is anchored at the immediately
preceding RAW sample, accepted or not: for every consecutive raw pair
(l, p) the points at l.secs + k*recInt strictly before p.secs are
inserted as zeroes; for monotone inputs these are exactly the claimed
intermediate multiples between consecutive accepted samples). -/
theorem c8_gapfill (recInt : Nat) (hstep : 0 < recInt) (samples : List Sample)
    (l p : Sample) (hmem : (l, p) ∈ samples.zip samples.tail) (k : Nat) (hk : 1 ≤ k)
    (ht : l.secs + k * recInt < p.secs) :
    (l.secs + k * recInt, (0 : Rat)) ∈ buildPoints recInt samples := by
  obtain ⟨k2, rfl⟩ : ∃ k2, k = k2 + 1 := ⟨k - 1, by omega⟩
  have heq : l.secs + (k2 + 1) * recInt = (l.secs + recInt) + k2 * recInt := by ring
  rw [heq] at ht ⊢
  exact zip_gapfill_mem recInt samples none l p _ hmem
    (gapFill_mem recInt hstep k2 (l.secs + recInt) p.secs ht)

/-- Claim C8 witness: the spec example, samples at t = 0 and t = 5 with
interval 1; the amended theorem inserts the zero at t = 2. -/
theorem c8_gapfill_witness :
    ((2 : Nat), (0 : Rat)) ∈ buildPoints 1 rideE.samples := by
  have h := c8_gapfill 1 (by decide) rideE.samples ⟨0, 100⟩ ⟨5, 100⟩
    (List.mem_singleton.mpr rfl) 2 (by decide) (by decide)
  simpa using h

/-- Claim C8 counterexample: in c8samples the (under either acceptance
reading) consecutive accepted pair is t = 6 and t = 12 with interval 2,
so the claim requires zeroes at t = 8 and t = 10; the code anchors the
fill at the rejected raw sample t = 3 and inserts zeroes at
5, 7, 9, 11 instead. -/
theorem c8_counterexample :
    ((6 : Nat), (100 : Rat)) ∈ buildPoints 2 c8samples
    ∧ ((12 : Nat), (100 : Rat)) ∈ buildPoints 2 c8samples
    ∧ ((8 : Nat), (0 : Rat)) ∉ buildPoints 2 c8samples
    ∧ ((10 : Nat), (0 : Rat)) ∉ buildPoints 2 c8samples := by
  have h : buildPoints 2 c8samples
      = [(6, 100), (5, 0), (7, 0), (9, 0), (11, 0), (12, 100)] := by
    with_unfolding_all rfl
  rw [h]
  refine ⟨by simp, by simp, by simp, by simp⟩

/-- Claim C9: the rolling-average initialisation sums the window
last-25 .. last-1 while the incremental update maintains a window
ending at the current index; on the raw array a9 (25 at index 1, zero
elsewhere, last = 26) the smoothed value at index 25 is 2, while the
directly computed trailing mean of EITHER window convention at 25 is
25/25 = 1. -/
theorem c9_smoothing_offbyone :
    smoothedOut a9 26 25 = 2
    ∧ Int.tdiv (∑ k in Finset.Icc 1 25, a9 k) 25 = 1
    ∧ Int.tdiv (∑ k in Finset.Icc 0 24, a9 k) 25 = 1
    ∧ (2 : Int) ≠ 1 := by
  refine ⟨?_, ?_, ?_, by decide⟩
  · with_unfolding_all rfl
  · with_unfolding_all rfl
  · with_unfolding_all rfl

/-- Claim C10: the interpolated power at the final second never
reaches any output: the excess and raw array slots at index last hold
0, every array, depletion value and the match list agree for two
interpolated series that differ only at the final second, and every
returned match starts and stops strictly before the final second. -/
theorem c10_final_second (p q : Nat → Int) (CP : Int) (WPRIME : Rat) (w : Nat → Rat)
    (last : Nat) (h : ∀ k, k < last → p k = q k) :
    inputArrayOf p CP last last = 0
    ∧ rawInit p last last = 0
    ∧ inputArrayOf p CP last = inputArrayOf q CP last
    ∧ valuesFn (inputArrayOf p CP last) WPRIME w = valuesFn (inputArrayOf q CP last) WPRIME w
    ∧ matchesOf (smoothedOut (rawInit p last) last) (rawInit p last) CP
        (valuesFn (inputArrayOf p CP last) WPRIME w) last
      = matchesOf (smoothedOut (rawInit q last) last) (rawInit q last) CP
          (valuesFn (inputArrayOf q CP last) WPRIME w) last
    ∧ ∀ m, m ∈ matchesOf (smoothedOut (rawInit p last) last) (rawInit p last) CP
        (valuesFn (inputArrayOf p CP last) WPRIME w) last →
        m.start < last ∧ m.stop + 1 < last := by
  have hinp : inputArrayOf p CP last = inputArrayOf q CP last := by
    funext k
    unfold inputArrayOf
    by_cases hk : k < last
    · rw [if_pos hk, if_pos hk, h k hk]
    · rw [if_neg hk, if_neg hk]
  have hraw : rawInit p last = rawInit q last := by
    funext k
    unfold rawInit
    by_cases hk : k < last
    · rw [if_pos hk, if_pos hk, h k hk]
    · rw [if_neg hk, if_neg hk]
  refine ⟨?_, ?_, hinp, by rw [hinp], by rw [hinp, hraw], ?_⟩
  · unfold inputArrayOf
    rw [if_neg (lt_irrefl last)]
  · unfold rawInit
    rw [if_neg (lt_irrefl last)]
  · intro m hm
    obtain ⟨i, hi, he⟩ := matchesOf_mem _ _ _ _ _ m hm
    obtain ⟨ha, hb, _⟩ := he
    omega

/-- Claim C10 witness: two series that agree below second 5 and differ
there give the same excess slot (0) at second 5 and the same match
list. -/
theorem c10_final_second_witness :
    inputArrayOf pW 90 5 5 = 0
    ∧ matchesOf (smoothedOut (rawInit pW 5) 5) (rawInit pW 5) 90
        (valuesFn (inputArrayOf pW 90 5) 20000 wOne) 5
      = matchesOf (smoothedOut (rawInit qW 5) 5) (rawInit qW 5) 90
          (valuesFn (inputArrayOf qW 90 5) 20000 wOne) 5 := by
  have h := c10_final_second pW qW 90 20000 wOne 5 (by decide)
  exact ⟨h.1, h.2.2.2.2.1⟩

end GC
